import Mathlib

/-!
# Verification of `srt-extract.py`

A shallow embedding of the two core functions of `srt-extract.py`
(`format_timestamp` and `segments_to_srt`) together with the part of `main`
that guards against an empty segment list, and proofs of the specified
properties.

Modelling conventions:
* Python `float` seconds are modelled as exact rationals (`ℚ`).  The spec
  treats times as real numbers; binary floating-point rounding artifacts are
  outside the scope of this development.
* `datetime.timedelta(seconds=s)` stores whole microseconds, rounding the
  fractional microsecond half-to-even; this rounding step is modelled
  explicitly by `roundHalfEven`.
* Python `int(x)` on a real is truncation toward zero (`Int.tdiv` for
  quotients), Python `//` and `%` are floor division and floor modulus
  (`Int.fdiv` / `Int.emod`; for a positive modulus `Int.emod` agrees with
  Python `%`).
* Python `str.split()` (no separator) splits on maximal runs of whitespace
  and never yields empty words; it is embedded as `splitWs` on `List Char`.
* Fallible Python code (`ZeroDivisionError` from `duration / len(words)`,
  `ValueError` from `range(0, n, 0)`) is modelled with `Except PyError`.
-/

/-- Python whitespace test for `str.split()`; `Char.isWhitespace` covers
space, tab, carriage return and newline, the whitespace characters relevant
to this model. -/
def isWs (c : Char) : Bool := c.isWhitespace

/-- Embedding of Python `str.split()` (used at `srt-extract.py:56` as
`seg["text"].strip().split()`; the preceding `strip()` is redundant because
argument-free `split()` already ignores leading and trailing whitespace):
split a character list on maximal runs of whitespace, producing the list of
(nonempty) words. -/
def splitWs : List Char → List (List Char)
  | [] => []
  | c :: cs =>
    if isWs c then splitWs cs
    else (c :: cs.takeWhile (fun d => !isWs d)) ::
         splitWs (cs.dropWhile (fun d => !isWs d))
termination_by l => l.length
decreasing_by
  · simp only [List.length_cons]
    omega
  · have h := (List.dropWhile_sublist (l := cs) (fun d => !isWs d)).length_le
    simp only [List.length_cons]
    omega

/-- Round a rational to the nearest integer, halves to even: the rounding
`datetime.timedelta` applies to fractional microseconds. -/
def roundHalfEven (q : ℚ) : ℤ :=
  let f := q.floor
  let r := q - (f : ℚ)
  if r < 1/2 then f
  else if 1/2 < r then f + 1
  else if f % 2 = 0 then f else f + 1

/-- Python `f"{n:0Nd}"` for a natural number: decimal digits, left-padded
with zeros to width `w`. -/
def padNat (w : ℕ) (n : ℕ) : String :=
  let s := Nat.repr n
  String.mk (List.replicate (w - s.length) '0') ++ s

/-- Python `f"{n:0Nd}"` for an integer: for a negative number the sign comes
first and the zero-padding fills to the total width. -/
def padInt (w : ℕ) (n : ℤ) : String :=
  if n < 0 then "-" ++ padNat (w - 1) n.natAbs else padNat w n.natAbs

/-- The formatting part of `format_timestamp` after `timedelta` has reduced
the input to a whole number of microseconds `us`
(`srt-extract.py:40-45`):
`total_seconds = int(td.total_seconds())` truncates toward zero;
`hours`, `minutes`, `secs` use Python `//` and `%` (floor conventions);
`td.microseconds` is the floor modulus of `us` by `10^6`, and
`int(td.microseconds / 1000)` equals its floor quotient by `1000` (the float
division `n / 1000` for `0 ≤ n < 10^6` never rounds up to the next
integer). -/
def fmtOfUs (us : ℤ) : String :=
  let total_seconds : ℤ := Int.tdiv us 1000000
  let hours : ℤ := Int.fdiv total_seconds 3600
  let minutes : ℤ := Int.fdiv (Int.emod total_seconds 3600) 60
  let secs : ℤ := Int.emod total_seconds 60
  let milliseconds : ℤ := Int.fdiv (Int.emod us 1000000) 1000
  padInt 2 hours ++ ":" ++ padInt 2 minutes ++ ":" ++ padInt 2 secs ++ "," ++
    padInt 3 milliseconds

/-- Embedding of `format_timestamp` (`srt-extract.py:35-45`): convert seconds
to `HH:MM:SS,mmm`.  `timedelta(seconds=seconds)` rounds to whole
microseconds (half to even); the rest is `fmtOfUs`. -/
def format_timestamp (seconds : ℚ) : String :=
  fmtOfUs (roundHalfEven (seconds * 1000000))

/-- A transcription segment as consumed by `segments_to_srt`: the fields
`seg["text"]`, `seg["start"]`, `seg["end"]` of a Whisper segment dict. -/
structure Segment where
  text : String
  start : ℚ
  «end» : ℚ
deriving DecidableEq

/-- One emitted SRT caption: the values bound in the loop body of
`segments_to_srt` when it appends a four-line block (`idx`, the two
timestamps, and the joined words). -/
structure Caption where
  index : ℕ
  start : ℚ
  «end» : ℚ
  text : String
deriving DecidableEq

/-- Python exceptions that `segments_to_srt` can raise:
`ValueError` from `range(0, n, 0)` and `ZeroDivisionError` from
`duration / len(words)` with zero words. -/
inductive PyError where
  | valueError
  | zeroDivisionError
deriving DecidableEq

/-- Python `" ".join(chunk)` on a list of words. -/
def pyJoin (ws : List (List Char)) : String := String.mk (List.intercalate [' '] ws)

/-- The caption built by iteration `j` of the `else` loop of
`segments_to_srt` (`srt-extract.py:72-81`): the loop variable is
`i = j * max_words`, the chunk is `words[i : i + max_words]`,
`sub_start = start_time + i * word_duration` and
`sub_end = sub_start + len(chunk) * word_duration`; the caption index is the
global counter advanced by the `j` earlier iterations. -/
def chunkCaption (idx : ℕ) (start_time word_duration : ℚ)
    (words : List (List Char)) (mw j : ℕ) : Caption :=
  let i := j * mw
  let chunk := (words.drop i).take mw
  let sub_start := start_time + (i : ℚ) * word_duration
  let sub_end := sub_start + (chunk.length : ℚ) * word_duration
  { index := idx + j, start := sub_start, «end» := sub_end,
    text := pyJoin chunk }

/-- The captions emitted for one segment by the loop body of
`segments_to_srt` (`srt-extract.py:55-81`), threading the global caption
counter `idx`.  The `else` branch's `for i in range(0, len(words), max_words)`
visits exactly `i = j * max_words` for `j < ⌈len(words) / max_words⌉` when
`max_words > 0`, raises `ValueError` when `max_words = 0`, and visits nothing
when `max_words < 0`; `word_duration = duration / len(words)` is computed
before the `range` call and raises `ZeroDivisionError` on zero words. -/
def segCaptions (max_words : Int) (idx : ℕ) (seg : Segment) :
    Except PyError (List Caption × ℕ) :=
  let words := splitWs seg.text.data
  let start_time := seg.start
  let end_time := seg.«end»
  let duration := end_time - start_time
  if (words.length : Int) ≤ max_words then
    .ok ([{ index := idx, start := start_time, «end» := end_time,
            text := pyJoin words }], idx + 1)
  else if words.length = 0 then
    .error .zeroDivisionError
  else
    let word_duration := duration / (words.length : ℚ)
    if max_words = 0 then
      .error .valueError
    else if max_words < 0 then
      .ok ([], idx)
    else
      let mw := max_words.toNat
      let numChunks := (words.length + mw - 1) / mw
      let caps := (List.range numChunks).map
        (chunkCaption idx start_time word_duration words mw)
      .ok (caps, idx + numChunks)

/-- The full `for seg in segments` loop of `segments_to_srt`
(`srt-extract.py:55-81`) at the caption level: all captions in emission
order, with the final value of the counter `idx`. -/
def allCaptions (max_words : Int) : List Segment → ℕ → Except PyError (List Caption × ℕ)
  | [], idx => .ok ([], idx)
  | seg :: rest, idx =>
    match segCaptions max_words idx seg with
    | .error e => .error e
    | .ok (cs, idx2) =>
      match allCaptions max_words rest idx2 with
      | .error e => .error e
      | .ok (cs2, idx3) => .ok (cs ++ cs2, idx3)

/-- The timestamp line the code appends:
`f"{format_timestamp(sub_start)} --> {format_timestamp(sub_end)}"`. -/
def tsLine (c : Caption) : String :=
  format_timestamp c.start ++ " --> " ++ format_timestamp c.«end»

/-- The four lines appended to `lines` for one caption
(`srt-extract.py:63-66` and `srt-extract.py:77-80`): the index as a decimal
string, the timestamp line, the joined words, and an empty line. -/
def captionLines (c : Caption) : List String :=
  [toString c.index, tsLine c, c.text, ""]

/-- Embedding of `segments_to_srt` (`srt-extract.py:47-83`): the lines list
is the concatenation of the four-line blocks of all emitted captions, and the
result is `"\n".join(lines)`. -/
def segments_to_srt (segments : List Segment) (max_words : Int) :
    Except PyError String :=
  match allCaptions max_words segments 1 with
  | .error e => .error e
  | .ok (cs, _) => .ok (String.intercalate "\n" (cs.flatMap captionLines))

/-- Errors observable from `main`'s post-transcription code. -/
inductive MainError where
  | emptyInput
  | pyError (e : PyError)
deriving DecidableEq

/-- Embedding of the post-transcription part of `main`
(`srt-extract.py:128-136`): if the segment list is empty, exit with an error
(`"No speech segments detected. Exiting."`, exit status 1) before any
conversion happens or any output file is written; otherwise convert the
segments and return the SRT text that `main` writes to the output file. -/
def mainConvert (segments : List Segment) (max_words : Int) :
    Except MainError String :=
  if segments.isEmpty then .error .emptyInput
  else
    match segments_to_srt segments max_words with
    | .error e => .error (.pyError e)
    | .ok s => .ok s

/-- Is position `i` of the character list a decimal digit? -/
def isDigitAt (l : List Char) (i : ℕ) : Bool :=
  match l.get? i with
  | some c => c.isDigit
  | none => false

/-- Does a string have the exact shape `\d\d:\d\d:\d\d,\d\d\d`?  This is the
full-string reading of the spec's pattern `\d{2}:\d{2}:\d{2},\d{3}`. -/
def srtShape (s : String) : Bool :=
  (s.data.length == 12) &&
    ([0, 1, 3, 4, 6, 7, 9, 10, 11].all (fun i => isDigitAt s.data i)) &&
    (s.data.get? 2 == some ':') && (s.data.get? 5 == some ':') &&
    (s.data.get? 8 == some ',')

/-! ### Properties of `splitWs` -/

/-- Every word produced by `splitWs` is nonempty and free of whitespace. -/
theorem splitWs_sound : ∀ (l : List Char), ∀ w ∈ splitWs l, w ≠ [] ∧ ∀ c ∈ w, isWs c = false
  | [] => by simp [splitWs]
  | c :: cs => by
    rw [splitWs]
    by_cases h : isWs c
    · simpa [h] using splitWs_sound cs
    · simp only [h, if_false]
      intro w hw
      rcases List.mem_cons.mp hw with rfl | hw2
      · refine ⟨by simp, ?_⟩
        intro d hd
        rcases List.mem_cons.mp hd with rfl | hd2
        · simpa using h
        · have := List.mem_takeWhile_imp hd2
          simpa using this
      · exact splitWs_sound _ w hw2
termination_by l => l.length
decreasing_by
  · simp only [List.length_cons]; omega
  · have h := (List.dropWhile_sublist (l := cs) (fun d => !isWs d)).length_le
    simp only [List.length_cons]; omega

/-- `takeWhile` runs over a whole prefix that satisfies the predicate and
stops at the first failing element. -/
theorem takeWhile_append_stop {p : Char → Bool} :
    ∀ (w : List Char), (∀ c ∈ w, p c = true) → ∀ (a : Char) (t : List Char),
      p a = false → (w ++ a :: t).takeWhile p = w
  | [], _, a, t, ha => by simp [List.takeWhile_cons, ha]
  | c :: w, hw, a, t, ha => by
    have hc : p c = true := hw c (by simp)
    simp only [List.cons_append, List.takeWhile_cons, hc, if_true]
    rw [takeWhile_append_stop w (fun d hd => hw d (by simp [hd])) a t ha]

/-- `dropWhile` drops a whole prefix that satisfies the predicate and stops
at the first failing element. -/
theorem dropWhile_append_stop {p : Char → Bool} :
    ∀ (w : List Char), (∀ c ∈ w, p c = true) → ∀ (a : Char) (t : List Char),
      p a = false → (w ++ a :: t).dropWhile p = a :: t
  | [], _, a, t, ha => by simp [List.dropWhile_cons, ha]
  | c :: w, hw, a, t, ha => by
    have hc : p c = true := hw c (by simp)
    simp only [List.cons_append, List.dropWhile_cons, hc, if_true]
    exact dropWhile_append_stop w (fun d hd => hw d (by simp [hd])) a t ha

/-- Splitting a single whitespace-free nonempty word yields just that word. -/
theorem splitWs_single (w : List Char) (hne : w ≠ [])
    (hw : ∀ c ∈ w, isWs c = false) : splitWs w = [w] := by
  match w, hne with
  | c :: rest, _ =>
    rw [splitWs]
    have hc : isWs c = false := hw c (by simp)
    simp only [hc, Bool.false_eq_true, if_false]
    have ht : rest.takeWhile (fun d => !isWs d) = rest :=
      List.takeWhile_eq_self_iff.mpr (fun d hd => by simp [hw d (by simp [hd])])
    have hd : rest.dropWhile (fun d => !isWs d) = [] :=
      List.dropWhile_eq_nil_iff.mpr (fun d hd => by simp [hw d (by simp [hd])])
    rw [ht, hd]
    simp [splitWs]

/-- Splitting `w ++ " " ++ t` with `w` a whitespace-free nonempty word peels
off `w` as the first word. -/
theorem splitWs_word_append (w : List Char) (hne : w ≠ [])
    (hw : ∀ c ∈ w, isWs c = false) (t : List Char) :
    splitWs (w ++ ' ' :: t) = w :: splitWs t := by
  match w, hne with
  | c :: rest, _ =>
    rw [List.cons_append, splitWs]
    have hc : isWs c = false := hw c (by simp)
    simp only [hc, Bool.false_eq_true, if_false]
    have hrest : ∀ d ∈ rest, (fun d => !isWs d) d = true :=
      fun d hd => by simp [hw d (by simp [hd])]
    have hsp : isWs ' ' = true := by decide
    have ht := takeWhile_append_stop rest hrest ' ' t (by simp [hsp])
    have hd := dropWhile_append_stop rest hrest ' ' t (by simp [hsp])
    rw [ht, hd]
    have : splitWs (' ' :: t) = splitWs t := by rw [splitWs]; simp [hsp]
    rw [this]

/-- `splitWs` is a left inverse of joining with single spaces, provided every
word is nonempty and whitespace-free. -/
theorem splitWs_intercalate :
    ∀ (ws : List (List Char)), (∀ w ∈ ws, w ≠ [] ∧ ∀ c ∈ w, isWs c = false) →
      splitWs (List.intercalate [' '] ws) = ws
  | [], _ => by simp [List.intercalate, splitWs]
  | [w], h => by
    have hw := h w (by simp)
    have : List.intercalate [' '] [w] = w := by simp [List.intercalate]
    rw [this, splitWs_single w hw.1 hw.2]
  | w :: w2 :: rest, h => by
    have hw := h w (by simp)
    have hcons : List.intercalate [' '] (w :: w2 :: rest) =
        w ++ ' ' :: List.intercalate [' '] (w2 :: rest) := by
      simp [List.intercalate, List.intersperse]
    rw [hcons, splitWs_word_append w hw.1 hw.2,
      splitWs_intercalate (w2 :: rest) (fun v hv => h v (by simp [List.mem_cons.mp hv]))]

/-! ### Chunking lemmas

The `else` branch of `segments_to_srt` cuts the word list into
`⌈n / mw⌉ = (n + mw - 1) / mw` consecutive chunks of at most `mw` words. -/

/-- Chunk `j` starts strictly inside the list. -/
theorem chunk_start_lt {mw n j : ℕ} (hj : j < (n + mw - 1) / mw) :
    j * mw < n := by
  have h2 : (j + 1) * mw ≤ ((n + mw - 1) / mw) * mw :=
    Nat.mul_le_mul_right mw hj
  have h3 : ((n + mw - 1) / mw) * mw ≤ n + mw - 1 := Nat.div_mul_le_self _ _
  have h4 : j * mw + mw ≤ n + mw - 1 := by
    rw [Nat.succ_mul] at h2
    exact le_trans h2 h3
  rcases Nat.eq_zero_or_pos mw with rfl | hmw
  · omega
  · generalize j * mw = x at h4 ⊢
    omega

/-- The chunks cover the whole list: `numChunks * mw ≥ n`. -/
theorem le_numChunks_mul {mw n : ℕ} (hmw : 1 ≤ mw) :
    n ≤ ((n + mw - 1) / mw) * mw := by
  rcases Nat.eq_zero_or_pos n with rfl | hn
  · simp
  · have hd := Nat.div_add_mod (n + mw - 1) mw
    have hr : (n + mw - 1) % mw < mw := Nat.mod_lt _ (by omega)
    rw [Nat.mul_comm]
    generalize hx : mw * ((n + mw - 1) / mw) = x at hd
    generalize hy : (n + mw - 1) % mw = y at hd hr
    omega

/-- Peeling one chunk off a nonempty list: the chunk count is one more than
the chunk count of the remainder. -/
theorem numChunks_succ {mw n : ℕ} (hmw : 1 ≤ mw) (hn : 1 ≤ n) :
    (n + mw - 1) / mw = (n - 1) / mw + 1 := by
  have h2 : n + mw - 1 = (n - 1) + mw := by omega
  rw [h2, Nat.add_div_right _ (by omega)]

/-- The chunk count of the list with its first chunk removed. -/
theorem numChunks_drop {mw n : ℕ} (hmw : 1 ≤ mw) (hn : 1 ≤ n) :
    (n - mw + mw - 1) / mw = (n - 1) / mw := by
  rcases le_or_lt mw n with h | h
  · congr 1
    omega
  · have h1 : n - mw + mw - 1 = mw - 1 := by omega
    rw [h1, Nat.div_eq_of_lt (by omega), Nat.div_eq_of_lt (by omega)]

/-- Concatenating the consecutive chunks of size `mw` reproduces the list. -/
theorem chunks_flatMap {α : Type} (mw : ℕ) (hmw : 1 ≤ mw) :
    ∀ (l : List α),
      (List.range ((l.length + mw - 1) / mw)).flatMap
        (fun j => (l.drop (j * mw)).take mw) = l
  | [] => by simp
  | x :: xs => by
    have hn1 : 1 ≤ (x :: xs).length := by simp
    rw [numChunks_succ hmw hn1, List.range_succ_eq_map, List.flatMap_cons,
      List.flatMap_map]
    have hfun : (fun j => (((x :: xs).drop (Nat.succ j * mw)).take mw)) =
        (fun j => ((((x :: xs).drop mw)).drop (j * mw)).take mw) := by
      funext j
      rw [List.drop_drop, Nat.succ_mul, Nat.add_comm]
    rw [hfun]
    have hrec := chunks_flatMap mw hmw ((x :: xs).drop mw)
    have hlen : ((x :: xs).drop mw).length = (x :: xs).length - mw := by
      simp
    rw [hlen, numChunks_drop hmw hn1] at hrec
    rw [hrec]
    simp
termination_by l => l.length
decreasing_by
  simp only [List.length_drop, List.length_cons]
  omega

/-! ### Characterizing `segCaptions` and `allCaptions` -/

/-- The `if` branch: a segment with at most `max_words` words is emitted
as a single caption spanning the whole segment. -/
theorem segCaptions_short {mw : ℤ} (idx : ℕ) (seg : Segment)
    (h : ((splitWs seg.text.data).length : ℤ) ≤ mw) :
    segCaptions mw idx seg =
      .ok ([{ index := idx, start := seg.start, «end» := seg.«end»,
              text := pyJoin (splitWs seg.text.data) }], idx + 1) := by
  simp only [segCaptions]
  rw [if_pos h]

/-- The `else` branch with a positive word limit: one caption per chunk. -/
theorem segCaptions_split {mw : ℤ} (idx : ℕ) (seg : Segment)
    (hmw : 1 ≤ mw) (hlong : mw < ((splitWs seg.text.data).length : ℤ)) :
    segCaptions mw idx seg =
      .ok ((List.range (((splitWs seg.text.data).length + mw.toNat - 1) / mw.toNat)).map
             (chunkCaption idx seg.start
               ((seg.«end» - seg.start) / ((splitWs seg.text.data).length : ℚ))
               (splitWs seg.text.data) mw.toNat),
           idx + ((splitWs seg.text.data).length + mw.toNat - 1) / mw.toNat) := by
  simp only [segCaptions]
  rw [if_neg (by omega), if_neg (by omega), if_neg (by omega), if_neg (by omega)]

/-- Any word of a chunk is a word of the full list. -/
theorem chunk_mem {α : Type} {w : α} {l : List α} {i mw : ℕ}
    (hw : w ∈ (l.drop i).take mw) : w ∈ l :=
  List.Sublist.mem hw ((List.take_sublist _ _).trans (List.drop_sublist _ _))

/-- Master lemma for one segment, for a positive word limit: the emitted
captions advance the counter by their number, carry consecutive indices, and
jointly carry exactly the segment's words; every caption text is a
space-join of whitespace-free nonempty words. -/
theorem segCaptions_ok {mw : ℤ} (hmw : 1 ≤ mw) (idx : ℕ) (seg : Segment) :
    ∃ cs : List Caption,
      segCaptions mw idx seg = .ok (cs, idx + cs.length) ∧
      cs.map (fun c => c.index) = List.range' idx cs.length ∧
      cs.flatMap (fun c => splitWs c.text.data) = splitWs seg.text.data ∧
      ∀ c ∈ cs, ∃ ws : List (List Char),
        (∀ w ∈ ws, w ≠ [] ∧ ∀ ch ∈ w, isWs ch = false) ∧ c.text = pyJoin ws := by
  have hsound := splitWs_sound seg.text.data
  rcases le_or_lt ((splitWs seg.text.data).length : ℤ) mw with h | h
  · refine ⟨[{ index := idx, start := seg.start, «end» := seg.«end»,
               text := pyJoin (splitWs seg.text.data) }],
      by rw [segCaptions_short idx seg h]; rfl, by simp, ?_, ?_⟩
    · simp only [List.flatMap_cons, List.flatMap_nil, List.append_nil]
      exact splitWs_intercalate _ hsound
    · intro c hc
      rcases List.mem_cons.mp hc with rfl | hc2
      · exact ⟨splitWs seg.text.data, hsound, rfl⟩
      · simp at hc2
  · have hmwN : 1 ≤ mw.toNat := by omega
    set words := splitWs seg.text.data with hwords
    set k := (words.length + mw.toNat - 1) / mw.toNat with hk
    refine ⟨(List.range k).map
        (chunkCaption idx seg.start ((seg.«end» - seg.start) / (words.length : ℚ))
          words mw.toNat), ?_, ?_, ?_, ?_⟩
    · rw [segCaptions_split idx seg hmw h]
      simp only [List.length_map, List.length_range]
    · simp only [List.map_map, List.length_map, List.length_range]
      rw [List.range'_eq_map_range]
      rfl
    · simp only [List.flatMap_map, List.length_map, List.length_range]
      have hchunk : ∀ j, splitWs ((chunkCaption idx seg.start
          ((seg.«end» - seg.start) / (words.length : ℚ)) words mw.toNat j).text).data =
          (words.drop (j * mw.toNat)).take mw.toNat := by
        intro j
        show splitWs (List.intercalate [' '] ((words.drop (j * mw.toNat)).take mw.toNat)) = _
        exact splitWs_intercalate _ (fun w hw => hsound w (chunk_mem hw))
      calc (List.range k).flatMap (fun j => splitWs ((chunkCaption idx seg.start
              ((seg.«end» - seg.start) / (words.length : ℚ)) words mw.toNat j).text).data)
          = (List.range k).flatMap (fun j => (words.drop (j * mw.toNat)).take mw.toNat) := by
            exact List.flatMap_congr (fun j _ => hchunk j)
        _ = words := chunks_flatMap mw.toNat hmwN words
    · intro c hc
      rcases List.mem_map.mp hc with ⟨j, _, rfl⟩
      exact ⟨(words.drop (j * mw.toNat)).take mw.toNat,
        fun w hw => hsound w (chunk_mem hw), rfl⟩

/-- Master lemma for the whole loop, for a positive word limit: no error is
raised, the counter advances by the number of captions, the indices are
consecutive from the starting counter, all words are preserved in order, and
every caption text is a space-join of whitespace-free nonempty words. -/
theorem allCaptions_ok {mw : ℤ} (hmw : 1 ≤ mw) :
    ∀ (segs : List Segment) (idx : ℕ),
      ∃ cs : List Caption,
        allCaptions mw segs idx = .ok (cs, idx + cs.length) ∧
        cs.map (fun c => c.index) = List.range' idx cs.length ∧
        cs.flatMap (fun c => splitWs c.text.data) =
          segs.flatMap (fun s => splitWs s.text.data) ∧
        ∀ c ∈ cs, ∃ ws : List (List Char),
          (∀ w ∈ ws, w ≠ [] ∧ ∀ ch ∈ w, isWs ch = false) ∧ c.text = pyJoin ws
  | [], idx => ⟨[], by simp [allCaptions], by simp, by simp, by simp⟩
  | seg :: rest, idx => by
    obtain ⟨cs1, h1, h1i, h1w, h1t⟩ := segCaptions_ok hmw idx seg
    obtain ⟨cs2, h2, h2i, h2w, h2t⟩ := allCaptions_ok hmw rest (idx + cs1.length)
    refine ⟨cs1 ++ cs2, ?_, ?_, ?_, ?_⟩
    · show allCaptions mw (seg :: rest) idx = _
      rw [allCaptions, h1]
      dsimp only
      rw [h2]
      simp [Nat.add_assoc]
    · rw [List.map_append, h1i, h2i, List.length_append]
      have hr := List.range'_append idx cs1.length cs2.length 1
      simp only [Nat.one_mul] at hr
      rw [Nat.add_comm cs1.length cs2.length]
      exact hr
    · rw [List.flatMap_append, h1w, h2w, List.flatMap_cons]
    · intro c hc
      rcases List.mem_append.mp hc with h | h
      · exact h1t c h
      · exact h2t c h

/-! ### Properties of `roundHalfEven` and `fmtOfUs` -/

/-- The `Batteries` floor on `ℚ` agrees with the `Mathlib` floor. -/
theorem ratFloor_eq (q : ℚ) : q.floor = ⌊q⌋ :=
  (Rat.floor_def' q).trans Rat.floor_def.symm

/-- Rounding half to even lands on the floor or the ceiling. -/
theorem roundHalfEven_cases (x : ℚ) :
    roundHalfEven x = ⌊x⌋ ∨ roundHalfEven x = ⌊x⌋ + 1 := by
  unfold roundHalfEven
  simp only [ratFloor_eq]
  split_ifs <;> simp

/-- Rounding half to even never exceeds an integer upper bound of the
input. -/
theorem roundHalfEven_le_int {x : ℚ} {K : ℤ} (h : x ≤ (K : ℚ)) :
    roundHalfEven x ≤ K := by
  have hfl : ⌊x⌋ ≤ K := by
    have := Int.floor_le_floor h
    rwa [Int.floor_intCast] at this
  by_cases hK : ⌊x⌋ = K
  · unfold roundHalfEven
    simp only [ratFloor_eq]
    rw [if_pos]
    · exact hfl
    · rw [hK]
      have : x - (K : ℚ) ≤ 0 := by linarith
      linarith
  · have h2 : ⌊x⌋ + 1 ≤ K := by omega
    rcases roundHalfEven_cases x with h1 | h1 <;> omega

/-- Rounding half to even of a non-negative number is non-negative. -/
theorem roundHalfEven_nonneg {x : ℚ} (h : 0 ≤ x) : 0 ≤ roundHalfEven x := by
  have hfl : 0 ≤ ⌊x⌋ := Int.floor_nonneg.mpr h
  rcases roundHalfEven_cases x with h1 | h1 <;> omega

/-- Rounding half to even is monotone. -/
theorem roundHalfEven_mono {x y : ℚ} (h : x ≤ y) :
    roundHalfEven x ≤ roundHalfEven y := by
  have hf : ⌊x⌋ ≤ ⌊y⌋ := Int.floor_le_floor h
  rcases lt_or_eq_of_le hf with hlt | heq
  · have h1 : roundHalfEven x ≤ ⌊x⌋ + 1 := by
      rcases roundHalfEven_cases x with h1 | h1 <;> omega
    have h2 : ⌊y⌋ ≤ roundHalfEven y := by
      rcases roundHalfEven_cases y with h2 | h2 <;> omega
    omega
  · unfold roundHalfEven
    simp only [ratFloor_eq]
    rw [heq]
    have hfr : x - ((⌊y⌋ : ℤ) : ℚ) ≤ y - ((⌊y⌋ : ℤ) : ℚ) := sub_le_sub_right h _
    split_ifs <;> first | omega | (exfalso; linarith)

/-! ### Decimal rendering of the timestamp fields -/

set_option maxRecDepth 10000 in
/-- A two-digit zero-padded field is exactly its two decimal digits. -/
theorem padNat_two_data : ∀ n, n < 100 → (padNat 2 n).data =
    [Nat.digitChar (n / 10), Nat.digitChar (n % 10)] := by decide

set_option maxRecDepth 100000 in
set_option maxHeartbeats 1000000 in
/-- A three-digit zero-padded field is exactly its three decimal digits. -/
theorem padNat_three_data : ∀ n, n < 1000 → (padNat 3 n).data =
    [Nat.digitChar (n / 100), Nat.digitChar (n / 10 % 10), Nat.digitChar (n % 10)] := by
  decide

/-- Decimal digit characters are digits. -/
theorem digitChar_isDigit : ∀ d, d < 10 → (Nat.digitChar d).isDigit = true := by decide

/-- Character order agrees with digit order on decimal digits. -/
theorem digitChar_lt : ∀ a, a < 10 → ∀ b, b < 10 → a < b →
    Nat.digitChar a < Nat.digitChar b := by decide

/-- `padInt` on a non-negative value is `padNat`. -/
theorem padInt_ofNat (w : ℕ) (k : ℕ) : padInt w (k : ℤ) = padNat w k := by
  unfold padInt
  rw [if_neg (by omega)]
  simp [Int.natAbs_ofNat]

/-- `fmtOfUs` on a whole non-negative number of microseconds, with all the
integer arithmetic carried out on `ℕ`. -/
theorem fmtOfUs_ofNat (M : ℕ) :
    fmtOfUs (M : ℤ) = padNat 2 (M / 1000000 / 3600) ++ ":" ++
      padNat 2 (M / 1000000 % 3600 / 60) ++ ":" ++ padNat 2 (M / 1000000 % 60) ++ "," ++
      padNat 3 (M % 1000000 / 1000) := by
  simp only [fmtOfUs]
  have e1 : Int.tdiv (M : ℤ) 1000000 = ((M / 1000000 : ℕ) : ℤ) := rfl
  have e2 : Int.fdiv ((M / 1000000 : ℕ) : ℤ) 3600 = ((M / 1000000 / 3600 : ℕ) : ℤ) :=
    (Int.ofNat_fdiv _ 3600).symm
  have e3 : Int.emod ((M / 1000000 : ℕ) : ℤ) 3600 = ((M / 1000000 % 3600 : ℕ) : ℤ) := rfl
  have e4 : Int.fdiv ((M / 1000000 % 3600 : ℕ) : ℤ) 60 =
      ((M / 1000000 % 3600 / 60 : ℕ) : ℤ) := (Int.ofNat_fdiv _ 60).symm
  have e5 : Int.emod ((M / 1000000 : ℕ) : ℤ) 60 = ((M / 1000000 % 60 : ℕ) : ℤ) := rfl
  have e6 : Int.emod (M : ℤ) 1000000 = ((M % 1000000 : ℕ) : ℤ) := rfl
  have e7 : Int.fdiv ((M % 1000000 : ℕ) : ℤ) 1000 = ((M % 1000000 / 1000 : ℕ) : ℤ) :=
    (Int.ofNat_fdiv _ 1000).symm
  rw [e1, e2, e3, e4, e5, e6, e7, padInt_ofNat, padInt_ofNat, padInt_ofNat, padInt_ofNat]

/-! ### Lexicographic comparison of timestamp strings -/

/-- A common prefix preserves strict lexicographic order. -/
theorem lex_append_right (p : List Char) {a b : List Char}
    (h : List.Lex (· < ·) a b) : List.Lex (· < ·) (p ++ a) (p ++ b) := by
  induction p with
  | nil => exact h
  | cons c p ih => exact List.Lex.cons ih

/-- Strict order on equal-length prefixes decides the comparison, whatever
follows. -/
theorem lex_append_of_lex : ∀ {p q : List Char}, List.Lex (· < ·) p q →
    p.length = q.length → ∀ (a b : List Char), List.Lex (· < ·) (p ++ a) (q ++ b) := by
  intro p q h
  induction h with
  | nil => intro hlen; simp at hlen
  | rel hr => intro _ a b; exact List.Lex.rel hr
  | cons h ih =>
    intro hlen a b
    exact List.Lex.cons (ih (by simpa using hlen) a b)

/-- Two-digit fields compare like their values. -/
theorem pad2_lex {a b : ℕ} (hb : b < 100) (h : a < b) :
    List.Lex (· < ·) (padNat 2 a).data (padNat 2 b).data := by
  have ha : a < 100 := lt_trans h hb
  rw [padNat_two_data a ha, padNat_two_data b hb]
  rcases Nat.lt_or_ge (a / 10) (b / 10) with h1 | h1
  · exact List.Lex.rel (digitChar_lt _ (by omega) _ (by omega) h1)
  · have h2 : a / 10 = b / 10 := by omega
    have h3 : a % 10 < b % 10 := by omega
    rw [h2]
    exact List.Lex.cons (List.Lex.rel (digitChar_lt _ (by omega) _ (by omega) h3))

/-- Three-digit fields compare like their values. -/
theorem pad3_lex {a b : ℕ} (hb : b < 1000) (h : a < b) :
    List.Lex (· < ·) (padNat 3 a).data (padNat 3 b).data := by
  have ha : a < 1000 := lt_trans h hb
  rw [padNat_three_data a ha, padNat_three_data b hb]
  rcases Nat.lt_or_ge (a / 100) (b / 100) with h1 | h1
  · exact List.Lex.rel (digitChar_lt _ (by omega) _ (by omega) h1)
  · have h2 : a / 100 = b / 100 := by omega
    rw [h2]
    rcases Nat.lt_or_ge (a / 10 % 10) (b / 10 % 10) with h3 | h3
    · exact List.Lex.cons (List.Lex.rel (digitChar_lt _ (by omega) _ (by omega) h3))
    · have h4 : a / 10 % 10 = b / 10 % 10 := by omega
      have h5 : a % 10 < b % 10 := by omega
      rw [h4]
      exact List.Lex.cons (List.Lex.cons
        (List.Lex.rel (digitChar_lt _ (by omega) _ (by omega) h5)))

/-- Two-digit fields have two characters. -/
theorem pad2_len {a : ℕ} (ha : a < 100) : (padNat 2 a).data.length = 2 := by
  rw [padNat_two_data a ha]
  rfl

/-- The character list of a rendered timestamp. -/
theorem tsString_data (h m s x : ℕ) :
    (padNat 2 h ++ ":" ++ padNat 2 m ++ ":" ++ padNat 2 s ++ "," ++
        padNat 3 x : String).data =
      (padNat 2 h).data ++ ':' :: ((padNat 2 m).data ++ ':' ::
        ((padNat 2 s).data ++ ',' :: (padNat 3 x).data)) := by
  have hc : (":" : String).data = [':'] := rfl
  have hcm : ("," : String).data = [','] := rfl
  simp [String.data_append, hc, hcm]

/-- Rendered timestamps compare lexicographically like their field
tuples. -/
theorem tsString_le {h1 m1 s1 x1 h2 m2 s2 x2 : ℕ}
    (bh1 : h1 < 100) (bh2 : h2 < 100) (bm1 : m1 < 100) (bm2 : m2 < 100)
    (bs1 : s1 < 100) (bs2 : s2 < 100) (bx1 : x1 < 1000) (bx2 : x2 < 1000)
    (hlex : h1 < h2 ∨ h1 = h2 ∧ (m1 < m2 ∨ m1 = m2 ∧
      (s1 < s2 ∨ s1 = s2 ∧ x1 ≤ x2))) :
    (padNat 2 h1 ++ ":" ++ padNat 2 m1 ++ ":" ++ padNat 2 s1 ++ "," ++
        padNat 3 x1 : String) ≤
      padNat 2 h2 ++ ":" ++ padNat 2 m2 ++ ":" ++ padNat 2 s2 ++ "," ++
        padNat 3 x2 := by
  rw [String.le_iff_toList_le]
  show (padNat 2 h1 ++ ":" ++ padNat 2 m1 ++ ":" ++ padNat 2 s1 ++ "," ++
      padNat 3 x1 : String).data ≤
    (padNat 2 h2 ++ ":" ++ padNat 2 m2 ++ ":" ++ padNat 2 s2 ++ "," ++
      padNat 3 x2 : String).data
  rw [tsString_data, tsString_data]
  rcases hlex with hh | ⟨rfl, hm | ⟨rfl, hs | ⟨rfl, hx⟩⟩⟩
  · exact le_of_lt (lex_append_of_lex (pad2_lex bh2 hh)
      (by rw [pad2_len bh1, pad2_len bh2]) _ _)
  · exact le_of_lt (lex_append_right _ (List.Lex.cons
      (lex_append_of_lex (pad2_lex bm2 hm)
        (by rw [pad2_len bm1, pad2_len bm2]) _ _)))
  · exact le_of_lt (lex_append_right _ (List.Lex.cons (lex_append_right _
      (List.Lex.cons (lex_append_of_lex (pad2_lex bs2 hs)
        (by rw [pad2_len bs1, pad2_len bs2]) _ _)))))
  · rcases Nat.lt_or_ge x1 x2 with hx2 | hx2
    · exact le_of_lt (lex_append_right _ (List.Lex.cons (lex_append_right _
        (List.Lex.cons (lex_append_right _
          (List.Lex.cons (pad3_lex bx2 hx2)))))))
    · have hxe : x1 = x2 := le_antisymm hx (by omega)
      subst hxe
      exact le_refl _

/-- A rendered timestamp with in-range fields matches
`\d\d:\d\d:\d\d,\d\d\d`. -/
theorem srtShape_fields {h m s x : ℕ} (bh : h < 100) (bm : m < 100)
    (bs : s < 100) (bx : x < 1000) :
    srtShape (padNat 2 h ++ ":" ++ padNat 2 m ++ ":" ++ padNat 2 s ++ "," ++
      padNat 3 x) = true := by
  have hdata : (padNat 2 h ++ ":" ++ padNat 2 m ++ ":" ++ padNat 2 s ++ "," ++
      padNat 3 x : String).data =
      [Nat.digitChar (h / 10), Nat.digitChar (h % 10), ':',
       Nat.digitChar (m / 10), Nat.digitChar (m % 10), ':',
       Nat.digitChar (s / 10), Nat.digitChar (s % 10), ',',
       Nat.digitChar (x / 100), Nat.digitChar (x / 10 % 10),
       Nat.digitChar (x % 10)] := by
    rw [tsString_data, padNat_two_data h bh, padNat_two_data m bm,
      padNat_two_data s bs, padNat_three_data x bx]
    rfl
  unfold srtShape
  rw [hdata]
  simp [isDigitAt, digitChar_isDigit (h / 10) (by omega), digitChar_isDigit (h % 10) (by omega),
    digitChar_isDigit (m / 10) (by omega), digitChar_isDigit (m % 10) (by omega),
    digitChar_isDigit (s / 10) (by omega), digitChar_isDigit (s % 10) (by omega),
    digitChar_isDigit (x / 100) (by omega), digitChar_isDigit (x / 10 % 10) (by omega),
    digitChar_isDigit (x % 10) (by omega)]

/-- For non-negative seconds, `format_timestamp` renders the four fields of
the rounded microsecond count. -/
theorem format_timestamp_eq_fields (s : ℚ) (h0 : 0 ≤ s) :
    format_timestamp s =
      padNat 2 ((roundHalfEven (s * 1000000)).toNat / 1000000 / 3600) ++ ":" ++
      padNat 2 ((roundHalfEven (s * 1000000)).toNat / 1000000 % 3600 / 60) ++ ":" ++
      padNat 2 ((roundHalfEven (s * 1000000)).toNat / 1000000 % 60) ++ "," ++
      padNat 3 ((roundHalfEven (s * 1000000)).toNat % 1000000 / 1000) := by
  have hnn : 0 ≤ roundHalfEven (s * 1000000) :=
    roundHalfEven_nonneg (mul_nonneg h0 (by norm_num))
  have hcast : format_timestamp s =
      fmtOfUs (((roundHalfEven (s * 1000000)).toNat : ℕ) : ℤ) := by
    rw [format_timestamp, Int.toNat_of_nonneg hnn]
  rw [hcast, fmtOfUs_ofNat]

/-- For seconds at most `-1`, the rendered string starts with a minus sign
(the hours field is negative) and so does not match the
`\d\d:\d\d:\d\d,\d\d\d` shape. -/
theorem format_timestamp_neg (s : ℚ) (hs : s ≤ -1) :
    ∃ rest : List Char, (format_timestamp s).data = '-' :: rest ∧
      srtShape (format_timestamp s) = false := by
  have hu : roundHalfEven (s * 1000000) ≤ -1000000 := by
    apply roundHalfEven_le_int
    push_cast
    have := mul_le_mul_of_nonneg_right hs (by norm_num : (0 : ℚ) ≤ 1000000)
    linarith
  set u := roundHalfEven (s * 1000000) with hudef
  have hts : Int.tdiv u 1000000 ≤ -1 := by
    have hv : u = -(((-u).toNat : ℕ) : ℤ) := by omega
    rw [hv, Int.neg_tdiv]
    have : Int.tdiv (((-u).toNat : ℕ) : ℤ) ((1000000 : ℕ) : ℤ) =
        (((-u).toNat / 1000000 : ℕ) : ℤ) := rfl
    rw [show ((1000000 : ℕ) : ℤ) = (1000000 : ℤ) from rfl] at this
    rw [this]
    have hge : 1000000 ≤ (-u).toNat := by omega
    have : 1 ≤ (-u).toNat / 1000000 := (Nat.le_div_iff_mul_le (by norm_num)).mpr (by omega)
    omega
  have hh : Int.fdiv (Int.tdiv u 1000000) 3600 < 0 := by
    rw [Int.fdiv_eq_ediv _ (by norm_num)]
    omega
  obtain ⟨p, hp⟩ : ∃ p, (padInt 2 (Int.fdiv (Int.tdiv u 1000000) 3600)).data =
      '-' :: p := by
    unfold padInt
    rw [if_pos hh]
    exact ⟨(padNat 1 (Int.fdiv (Int.tdiv u 1000000) 3600).natAbs).data, rfl⟩
  have hdata : (format_timestamp s).data =
      (padInt 2 (Int.fdiv (Int.tdiv u 1000000) 3600)).data ++
      ((":" : String).data ++
        ((padInt 2 (Int.fdiv (Int.emod (Int.tdiv u 1000000) 3600) 60)).data ++
          ((":" : String).data ++
            ((padInt 2 (Int.emod (Int.tdiv u 1000000) 60)).data ++
              (("," : String).data ++
                (padInt 3 (Int.fdiv (Int.emod u 1000000) 1000)).data))))) := by
    simp only [format_timestamp, fmtOfUs, ← hudef, String.data_append,
      List.append_assoc]
  rw [hp] at hdata
  refine ⟨p ++ _, by rw [hdata]; rfl, ?_⟩
  unfold srtShape
  rw [hdata]
  simp [isDigitAt]

/-! ### Character inventory of rendered lines -/

/-- Everything `Nat.toDigitsCore 10` prepends is a decimal digit. -/
theorem toDigitsCore_digits : ∀ (fuel n : ℕ) (ds : List Char),
    (∀ c ∈ ds, c.isDigit = true) →
    ∀ c ∈ Nat.toDigitsCore 10 fuel n ds, c.isDigit = true
  | 0, n, ds, hds => by
    rw [Nat.toDigitsCore]
    exact hds
  | fuel + 1, n, ds, hds => by
    rw [Nat.toDigitsCore]
    have hd : ∀ c ∈ (Nat.digitChar (n % 10) :: ds), c.isDigit = true := by
      intro c hc
      rcases List.mem_cons.mp hc with rfl | hc2
      · exact digitChar_isDigit _ (by omega)
      · exact hds c hc2
    split
    · exact hd
    · exact toDigitsCore_digits fuel (n / 10) _ hd

/-- Every character of `Nat.repr` is a decimal digit. -/
theorem repr_digits (n : ℕ) : ∀ c ∈ (Nat.repr n).data, c.isDigit = true := by
  have : (Nat.repr n).data = Nat.toDigits 10 n := rfl
  rw [this, Nat.toDigits]
  exact toDigitsCore_digits (n + 1) n [] (by simp)

/-- No character of `padNat` is a newline. -/
theorem padNat_no_newline (w n : ℕ) : ∀ c ∈ (padNat w n).data, c ≠ '\n' := by
  intro c hc
  simp only [padNat, String.data_append] at hc
  rcases List.mem_append.mp hc with h | h
  · have := List.eq_of_mem_replicate h
    subst this
    decide
  · have := repr_digits n c h
    intro hne
    subst hne
    simp at this

/-- No character of `padInt` is a newline. -/
theorem padInt_no_newline (w : ℕ) (k : ℤ) : ∀ c ∈ (padInt w k).data, c ≠ '\n' := by
  intro c hc
  unfold padInt at hc
  split at hc
  · rcases List.mem_append.mp hc with h | h
    · simp at h
      subst h
      decide
    · exact padNat_no_newline _ _ c h
  · exact padNat_no_newline _ _ c hc

/-- No character of a rendered timestamp is a newline. -/
theorem format_timestamp_no_newline (q : ℚ) :
    ∀ c ∈ (format_timestamp q).data, c ≠ '\n' := by
  intro c hc
  simp only [format_timestamp, fmtOfUs, String.data_append, List.append_assoc] at hc
  rcases List.mem_append.mp hc with h | hc
  · exact padInt_no_newline _ _ c h
  rcases List.mem_append.mp hc with h | hc
  · simp at h; subst h; decide
  rcases List.mem_append.mp hc with h | hc
  · exact padInt_no_newline _ _ c h
  rcases List.mem_append.mp hc with h | hc
  · simp at h; subst h; decide
  rcases List.mem_append.mp hc with h | hc
  · exact padInt_no_newline _ _ c h
  rcases List.mem_append.mp hc with h | hc
  · simp at h; subst h; decide
  · exact padInt_no_newline _ _ c hc

/-- Every character of a space-join of whitespace-free words is a space or a
word character; in particular it is never a newline. -/
theorem pyJoin_no_newline (ws : List (List Char))
    (hws : ∀ w ∈ ws, w ≠ [] ∧ ∀ ch ∈ w, isWs ch = false) :
    ∀ c ∈ (pyJoin ws).data, c ≠ '\n' := by
  intro c hc
  have : c ∈ List.intercalate [' '] ws := hc
  clear hc
  induction ws with
  | nil => simp [List.intercalate] at this
  | cons w rest ih =>
    rcases rest with _ | ⟨w2, rest2⟩
    · have hw : c ∈ w := by
        simpa [List.intercalate] using this
      have := (hws w (by simp)).2 c hw
      intro hne
      subst hne
      simp [isWs] at this
    · have hsplit : List.intercalate [' '] (w :: w2 :: rest2) =
          w ++ ' ' :: List.intercalate [' '] (w2 :: rest2) := by
        simp [List.intercalate, List.intersperse]
      rw [hsplit] at this
      rcases List.mem_append.mp this with h | h
      · have := (hws w (by simp)).2 c h
        intro hne
        subst hne
        simp [isWs] at this
      · rcases List.mem_cons.mp h with rfl | h2
        · decide
        · exact ih (fun v hv => hws v (by simp [hv])) h2

/-- Splitting an all-whitespace character list yields no words. -/
theorem splitWs_all_ws : ∀ (l : List Char), (∀ c ∈ l, isWs c = true) →
    splitWs l = []
  | [], _ => by simp [splitWs]
  | c :: cs, h => by
    rw [splitWs]
    rw [if_pos (h c (by simp))]
    exact splitWs_all_ws cs (fun d hd => h d (by simp [hd]))
termination_by l => l.length
decreasing_by
  simp only [List.length_cons]
  omega

/-- Whenever `segCaptions` succeeds, every emitted caption text is a
space-join of whitespace-free nonempty words (with no positivity assumption
on the word limit). -/
theorem segCaptions_text_ok {mw : ℤ} {idx : ℕ} {seg : Segment}
    {cs : List Caption} {idx2 : ℕ}
    (h : segCaptions mw idx seg = .ok (cs, idx2)) :
    ∀ c ∈ cs, ∃ ws : List (List Char),
      (∀ w ∈ ws, w ≠ [] ∧ ∀ ch ∈ w, isWs ch = false) ∧ c.text = pyJoin ws := by
  have hsound := splitWs_sound seg.text.data
  simp only [segCaptions] at h
  split at h
  · rw [Except.ok.injEq, Prod.mk.injEq] at h
    intro c hc
    rw [← h.1] at hc
    rcases List.mem_cons.mp hc with rfl | hce
    · exact ⟨splitWs seg.text.data, hsound, rfl⟩
    · simp at hce
  · split at h
    · cases h
    · split at h
      · cases h
      · split at h
        · rw [Except.ok.injEq, Prod.mk.injEq] at h
          intro c hc
          rw [← h.1] at hc
          simp at hc
        · rw [Except.ok.injEq, Prod.mk.injEq] at h
          intro c hc
          rw [← h.1] at hc
          rcases List.mem_map.mp hc with ⟨j, -, rfl⟩
          exact ⟨_, fun w hw => hsound w (chunk_mem hw), rfl⟩

/-- Whenever the whole loop succeeds, every emitted caption text is a
space-join of whitespace-free nonempty words. -/
theorem allCaptions_text_ok {mw : ℤ} :
    ∀ {segs : List Segment} {idx : ℕ} {cs : List Caption} {idx2 : ℕ},
      allCaptions mw segs idx = .ok (cs, idx2) →
      ∀ c ∈ cs, ∃ ws : List (List Char),
        (∀ w ∈ ws, w ≠ [] ∧ ∀ ch ∈ w, isWs ch = false) ∧ c.text = pyJoin ws := by
  intro segs
  induction segs with
  | nil =>
    intro idx cs idx2 h
    simp only [allCaptions] at h
    rw [Except.ok.injEq, Prod.mk.injEq] at h
    rw [← h.1]
    simp
  | cons seg rest ih =>
    intro idx cs idx2 h
    rw [allCaptions] at h
    cases hseg : segCaptions mw idx seg with
    | error e => rw [hseg] at h; cases h
    | ok p =>
      obtain ⟨cs1, idxm⟩ := p
      rw [hseg] at h
      dsimp only at h
      cases hrest : allCaptions mw rest idxm with
      | error e => rw [hrest] at h; cases h
      | ok p2 =>
        obtain ⟨cs2, idx3⟩ := p2
        rw [hrest] at h
        dsimp only at h
        rw [Except.ok.injEq, Prod.mk.injEq] at h
        rw [← h.1]
        intro c hc
        rcases List.mem_append.mp hc with hc1 | hc2
        · exact segCaptions_text_ok hseg c hc1
        · exact ih hrest c hc2

/-! ### The claims -/

/-- C2: For every list of segments and every `max_words ≥ 1`, concatenating
the whitespace-split word sequences of all captions emitted by
`segments_to_srt`, in emission order, reproduces exactly the concatenation of
the whitespace-split word sequences of the input segments in their original
order — no word is dropped, reordered, or duplicated. -/
theorem spec_C2_word_preservation (segs : List Segment) (max_words : ℤ)
    (hmw : 1 ≤ max_words) :
    ∃ (cs : List Caption) (idxF : ℕ),
      allCaptions max_words segs 1 = .ok (cs, idxF) ∧
      segments_to_srt segs max_words =
        .ok (String.intercalate "\n" (cs.flatMap captionLines)) ∧
      cs.flatMap (fun c => splitWs c.text.data) =
        segs.flatMap (fun s => splitWs s.text.data) := by
  obtain ⟨cs, h1, -, h3, -⟩ := allCaptions_ok hmw segs 1
  refine ⟨cs, 1 + cs.length, h1, ?_, h3⟩
  rw [segments_to_srt, h1]

/-- C2 witness at a concrete input. -/
theorem spec_C2_word_preservation_witness :
    (1 : ℤ) ≤ 2 ∧
    ∃ (cs : List Caption) (idxF : ℕ),
      allCaptions 2 [⟨"a b c", 0, 3⟩, ⟨"d", 3, 4⟩] 1 = .ok (cs, idxF) ∧
      segments_to_srt [⟨"a b c", 0, 3⟩, ⟨"d", 3, 4⟩] 2 =
        .ok (String.intercalate "\n" (cs.flatMap captionLines)) ∧
      cs.flatMap (fun c => splitWs c.text.data) =
        [⟨"a b c", 0, 3⟩, ⟨"d", 3, 4⟩].flatMap
          (fun s : Segment => splitWs s.text.data) :=
  ⟨by decide, spec_C2_word_preservation [⟨"a b c", 0, 3⟩, ⟨"d", 3, 4⟩] 2 (by decide)⟩

/-- C3: the spec demands that `max_words ≤ 0` be rejected with a
`ConfigurationError` before processing begins; the code has no such check.
With `max_words = 0` and a nonempty segment it raises `ValueError` from
`range(0, len(words), 0)` in mid-processing, and with `max_words = -1` it
silently emits no captions for the segment (its words are dropped), so the
claim describes behaviour the code does not have. -/
theorem spec_C3_no_configuration_error :
    segments_to_srt [⟨"a b", 0, 1⟩] 0 = .error .valueError ∧
    segments_to_srt [⟨"a b", 0, 1⟩] (-1) = .ok "" := by
  constructor
  · with_unfolding_all rfl
  · with_unfolding_all rfl

/-- C4 counterexample: a whitespace-only segment does NOT contribute nothing:
the code emits a caption block with an empty text line for it and advances
the global index (the following segment gets index 2, not 1). -/
theorem spec_C4_counterexample :
    splitWs ("   " : String).data = [] ∧
    segments_to_srt [⟨"   ", 0, 1⟩] 10 =
      .ok "1\n00:00:00,000 --> 00:00:01,000\n\n" ∧
    ("1\n00:00:00,000 --> 00:00:01,000\n\n" : String) ≠ "" ∧
    segments_to_srt [⟨"   ", 0, 1⟩, ⟨"hi", 1, 2⟩] 10 =
      .ok "1\n00:00:00,000 --> 00:00:01,000\n\n\n2\n00:00:01,000 --> 00:00:02,000\nhi\n" := by
  refine ⟨?_, ?_, by decide, ?_⟩
  · with_unfolding_all rfl
  · with_unfolding_all rfl
  · with_unfolding_all rfl

/-- C4 (amended): a segment whose text is empty or consists only of
whitespace splits into zero words, and for `max_words ≥ 0` the loop body
emits exactly one caption block for it — spanning the segment's `[start,
end]` with an empty text line — and advances the global index counter by
one; processing does not crash. -/
theorem spec_C4_empty_segment (seg : Segment) (max_words : ℤ) (idx : ℕ)
    (hws : ∀ c ∈ seg.text.data, isWs c = true) (hmw : 0 ≤ max_words) :
    splitWs seg.text.data = [] ∧
    segCaptions max_words idx seg =
      .ok ([{ index := idx, start := seg.start, «end» := seg.«end»,
              text := "" }], idx + 1) := by
  have hempty : splitWs seg.text.data = [] := splitWs_all_ws seg.text.data hws
  refine ⟨hempty, ?_⟩
  rw [segCaptions_short idx seg (by rw [hempty]; exact_mod_cast hmw), hempty]
  rfl

/-- C4 witness at a concrete input. -/
theorem spec_C4_empty_segment_witness :
    (∀ c ∈ ("  " : String).data, isWs c = true) ∧ (0 : ℤ) ≤ 10 ∧
    (splitWs ("  " : String).data = [] ∧
      segCaptions 10 7 ⟨"  ", 2, 5⟩ =
        .ok ([{ index := 7, start := 2, «end» := 5, text := "" }], 7 + 1)) :=
  ⟨by decide, by decide, spec_C4_empty_segment ⟨"  ", 2, 5⟩ 10 7 (by decide) (by decide)⟩

/-- C5: when zero segments are supplied, `main` takes the empty-input error
path ("No speech segments detected") and exits before any conversion or
write happens, rather than silently producing an empty document. -/
theorem spec_C5_empty_input : ∀ max_words : ℤ,
    mainConvert [] max_words = .error .emptyInput := fun _ => rfl

/-- C6: for any segment list and `max_words ≥ 1`, the emitted caption
indices are exactly `1, 2, 3, …` with no gaps and no repeats: the global
counter starts at 1, advances once per caption, and is never reset across
segments. -/
theorem spec_C6_index_monotonicity (segs : List Segment) (max_words : ℤ)
    (hmw : 1 ≤ max_words) :
    ∃ cs : List Caption,
      allCaptions max_words segs 1 = .ok (cs, 1 + cs.length) ∧
      cs.map (fun c => c.index) = List.range' 1 cs.length := by
  obtain ⟨cs, h1, h2, -, -⟩ := allCaptions_ok hmw segs 1
  exact ⟨cs, h1, h2⟩

/-- C6 witness at a concrete input. -/
theorem spec_C6_index_monotonicity_witness :
    (1 : ℤ) ≤ 2 ∧
    ∃ cs : List Caption,
      allCaptions 2 [⟨"a b c", 0, 3⟩, ⟨"d e", 3, 5⟩] 1 = .ok (cs, 1 + cs.length) ∧
      cs.map (fun c => c.index) = List.range' 1 cs.length :=
  ⟨by decide, spec_C6_index_monotonicity [⟨"a b c", 0, 3⟩, ⟨"d e", 3, 5⟩] 2 (by decide)⟩

/-- C8: `format_timestamp` truncates the milliseconds field rather than
rounding: `format_timestamp(0.0) = "00:00:00,000"` and
`format_timestamp(3661.2345) = "01:01:01,234"` (the 234.5 ms remainder is
truncated to 234, not rounded to 235). -/
theorem spec_C8_truncation :
    format_timestamp 0 = "00:00:00,000" ∧
    format_timestamp (3661.2345 : ℚ) = "01:01:01,234" ∧
    format_timestamp (3661.2345 : ℚ) ≠ "01:01:01,235" := by
  refine ⟨?_, ?_, ?_⟩
  · with_unfolding_all rfl
  · with_unfolding_all rfl
  · with_unfolding_all decide

/-- C9 counterexample: at 100 hours the claim fails.  `format_timestamp`
never bounds the hours field, so at `s = 360000` it returns
`"100:00:00,000"`, which does not match `\d\d:\d\d:\d\d,\d\d\d`, and the
string order decreases across the boundary (`"100:…" < "99:…"`
lexicographically although `359999 < 360000`). -/
theorem spec_C9_counterexample :
    (0 : ℚ) ≤ 359999 ∧ (359999 : ℚ) ≤ 360000 ∧
    format_timestamp 359999 = "99:59:59,000" ∧
    format_timestamp 360000 = "100:00:00,000" ∧
    srtShape (format_timestamp 360000) = false ∧
    format_timestamp 360000 < format_timestamp 359999 := by
  refine ⟨?_, ?_, ?_, ?_, ?_, ?_⟩
  · with_unfolding_all decide
  · with_unfolding_all decide
  · with_unfolding_all rfl
  · with_unfolding_all rfl
  · with_unfolding_all rfl
  · with_unfolding_all decide

/-- C9 (amended): for all `s` with `0 ≤ s` and
`s ≤ 359999999999 / 1000000` (just below 100 hours, so the hours field fits
in two digits after rounding to microseconds), `format_timestamp s` matches
the pattern `\d\d:\d\d:\d\d,\d\d\d`, and the returned string is monotonically
non-decreasing, in lexicographic string order, as `s` increases within this
range. -/
theorem spec_C9_shape_monotone (s t : ℚ) (h0 : 0 ≤ s)
    (hs : s ≤ 359999999999 / 1000000) (hst : s ≤ t)
    (ht : t ≤ 359999999999 / 1000000) :
    srtShape (format_timestamp s) = true ∧
    format_timestamp s ≤ format_timestamp t := by
  have hb : ∀ u : ℚ, 0 ≤ u → u ≤ 359999999999 / 1000000 →
      0 ≤ roundHalfEven (u * 1000000) ∧
        roundHalfEven (u * 1000000) ≤ 359999999999 := by
    intro u hu0 huB
    refine ⟨roundHalfEven_nonneg (mul_nonneg hu0 (by norm_num)), ?_⟩
    apply roundHalfEven_le_int
    push_cast
    exact (le_div_iff (by norm_num)).mp huB
  obtain ⟨hs0, hsB⟩ := hb s h0 hs
  obtain ⟨ht0, htB⟩ := hb t (le_trans h0 hst) ht
  have hMle : (roundHalfEven (s * 1000000)).toNat ≤
      (roundHalfEven (t * 1000000)).toNat := by
    have := roundHalfEven_mono
      (mul_le_mul_of_nonneg_right hst (by norm_num : (0 : ℚ) ≤ 1000000))
    omega
  have hMsB : (roundHalfEven (s * 1000000)).toNat ≤ 359999999999 := by omega
  have hMtB : (roundHalfEven (t * 1000000)).toNat ≤ 359999999999 := by omega
  rw [format_timestamp_eq_fields s h0, format_timestamp_eq_fields t (le_trans h0 hst)]
  constructor
  · exact srtShape_fields (by omega) (by omega) (by omega) (by omega)
  · apply tsString_le (by omega) (by omega) (by omega) (by omega) (by omega)
      (by omega) (by omega) (by omega)
    omega

/-- C9 witness at concrete inputs. -/
theorem spec_C9_shape_monotone_witness :
    (0 : ℚ) ≤ 0 ∧ (0 : ℚ) ≤ 359999999999 / 1000000 ∧ (0 : ℚ) ≤ 3661.2345 ∧
    (3661.2345 : ℚ) ≤ 359999999999 / 1000000 ∧
    (srtShape (format_timestamp 0) = true ∧
      format_timestamp 0 ≤ format_timestamp 3661.2345) :=
  ⟨by with_unfolding_all decide, by with_unfolding_all decide,
   by with_unfolding_all decide, by with_unfolding_all decide,
   spec_C9_shape_monotone 0 3661.2345 (by with_unfolding_all decide)
     (by with_unfolding_all decide) (by with_unfolding_all decide)
     (by with_unfolding_all decide)⟩

/-- C10 counterexample: the code neither clamps nor rejects negative input:
`format_timestamp (-3/2)` silently returns `"-1:59:59,500"`, a string that
does not have the `HH:MM:SS,mmm` form (and is not the clamped
`"00:00:00,000"`). -/
theorem spec_C10_counterexample :
    format_timestamp (-3/2) = "-1:59:59,500" ∧
    srtShape "-1:59:59,500" = false ∧
    format_timestamp (-3/2) ≠ "00:00:00,000" := by
  refine ⟨?_, by decide, ?_⟩
  · with_unfolding_all rfl
  · with_unfolding_all decide

/-- C10 (amended): `format_timestamp` does not clamp or reject negative
input; it runs the same arithmetic, and for every `s ≤ -1` it silently
returns a string that starts with a minus sign (the normalized hours field
is negative) and therefore does not match `\d\d:\d\d:\d\d,\d\d\d`. -/
theorem spec_C10_negative_malformed (s : ℚ) (hs : s ≤ -1) :
    ∃ rest : List Char, (format_timestamp s).data = '-' :: rest ∧
      srtShape (format_timestamp s) = false :=
  format_timestamp_neg s hs

/-- C10 witness at a concrete input. -/
theorem spec_C10_negative_malformed_witness :
    (-3/2 : ℚ) ≤ -1 ∧
    ∃ rest : List Char, (format_timestamp (-3/2)).data = '-' :: rest ∧
      srtShape (format_timestamp (-3/2)) = false :=
  ⟨by with_unfolding_all decide,
   spec_C10_negative_malformed (-3/2) (by with_unfolding_all decide)⟩

/-- The text of the caption built for chunk `j`. -/
theorem chunkCaption_text (idx : ℕ) (st wd : ℚ) (words : List (List Char))
    (mw j : ℕ) : (chunkCaption idx st wd words mw j).text =
      pyJoin ((words.drop (j * mw)).take mw) := rfl

/-- The start time of the caption built for chunk `j`. -/
theorem chunkCaption_start (idx : ℕ) (st wd : ℚ) (words : List (List Char))
    (mw j : ℕ) : (chunkCaption idx st wd words mw j).start =
      st + ((j * mw : ℕ) : ℚ) * wd := rfl

/-- The end time of the caption built for chunk `j`. -/
theorem chunkCaption_end (idx : ℕ) (st wd : ℚ) (words : List (List Char))
    (mw j : ℕ) : (chunkCaption idx st wd words mw j).«end» =
      st + ((j * mw : ℕ) : ℚ) * wd +
        ((((words.drop (j * mw)).take mw).length : ℕ) : ℚ) * wd := rfl

/-- Indexing into a map over a range. -/
theorem get_map_range {α : Type} (F : ℕ → α) (k j : ℕ)
    (hj : j < ((List.range k).map F).length) :
    ((List.range k).map F).get ⟨j, hj⟩ = F j := by
  simp

/-- C7: for every successful run, the output string is the newline-join of
exactly four lines per emitted caption — the decimal index, the
`"<start_ts> --> <end_ts>"` line built with `format_timestamp`, the caption
text, and a blank line — concatenated in emission order, with no line
containing a newline (so there is no trailing blank line beyond the final
caption's blank separator line). -/
theorem spec_C7_four_line_blocks (segs : List Segment) (max_words : ℤ)
    (out : String) (h : segments_to_srt segs max_words = .ok out) :
    ∃ (cs : List Caption) (idxF : ℕ),
      allCaptions max_words segs 1 = .ok (cs, idxF) ∧
      out = String.intercalate "\n" (cs.flatMap captionLines) ∧
      ∀ c ∈ cs,
        captionLines c = [toString c.index,
          format_timestamp c.start ++ " --> " ++ format_timestamp c.«end»,
          c.text, ""] ∧
        ∀ line ∈ captionLines c, ∀ ch ∈ line.data, ch ≠ '\n' := by
  rw [segments_to_srt] at h
  cases hall : allCaptions max_words segs 1 with
  | error e => rw [hall] at h; cases h
  | ok p =>
    obtain ⟨cs, idxF⟩ := p
    rw [hall] at h
    dsimp only at h
    rw [Except.ok.injEq] at h
    refine ⟨cs, idxF, rfl, h.symm, ?_⟩
    intro c hc
    refine ⟨rfl, ?_⟩
    intro line hline ch hch
    have hspace : ∀ d ∈ (" --> " : String).data, d ≠ '\n' := by decide
    simp only [captionLines, tsLine, List.mem_cons, List.not_mem_nil,
      or_false] at hline
    rcases hline with rfl | rfl | rfl | rfl
    · have hd := repr_digits c.index ch hch
      intro hne
      rw [hne] at hd
      simp at hd
    · simp only [String.data_append] at hch
      rcases List.mem_append.mp hch with h1 | h1
      · rcases List.mem_append.mp h1 with h2 | h2
        · exact format_timestamp_no_newline c.start ch h2
        · exact hspace ch h2
      · exact format_timestamp_no_newline c.«end» ch h1
    · obtain ⟨ws, hws, htext⟩ := allCaptions_text_ok hall c hc
      rw [htext] at hch
      exact pyJoin_no_newline ws hws ch hch
    · simp at hch

/-- C7 witness at a concrete input. -/
theorem spec_C7_four_line_blocks_witness :
    segments_to_srt [⟨"hi there", 0, 2⟩] 5 =
      .ok "1\n00:00:00,000 --> 00:00:02,000\nhi there\n" ∧
    ∃ (cs : List Caption) (idxF : ℕ),
      allCaptions 5 [⟨"hi there", 0, 2⟩] 1 = .ok (cs, idxF) ∧
      ("1\n00:00:00,000 --> 00:00:02,000\nhi there\n" : String) =
        String.intercalate "\n" (cs.flatMap captionLines) ∧
      ∀ c ∈ cs,
        captionLines c = [toString c.index,
          format_timestamp c.start ++ " --> " ++ format_timestamp c.«end»,
          c.text, ""] ∧
        ∀ line ∈ captionLines c, ∀ ch ∈ line.data, ch ≠ '\n' :=
  ⟨by with_unfolding_all rfl,
   spec_C7_four_line_blocks [⟨"hi there", 0, 2⟩] 5 _ (by with_unfolding_all rfl)⟩

/-- C1: for every segment whose word count `n` exceeds `max_words` (with
`max_words ≥ 1` and `end ≥ start`), the loop body of `segments_to_srt` emits
one caption per consecutive chunk of at most `max_words` words; with
`word_duration = (end − start) / n`, the chunk starting at word offset
`i = j·max_words` with `k` words has `sub_start = start + i × word_duration`
and `sub_end = sub_start + k × word_duration`; every emitted caption
satisfies `start ≤ end`, and the sub-caption ranges are contiguous,
non-overlapping, and partition the parent segment's `[start, end]` interval
proportionally to word count (the first caption starts at `start`, each
caption ends where the next begins, and the last ends exactly at `end`). -/
theorem spec_C1_proportional_split (seg : Segment) (max_words : ℤ) (idx : ℕ)
    (hmw : 1 ≤ max_words)
    (hlong : max_words < ((splitWs seg.text.data).length : ℤ))
    (hse : seg.start ≤ seg.«end») :
    ∃ cs : List Caption,
      segCaptions max_words idx seg = .ok (cs, idx + cs.length) ∧
      cs.length = ((splitWs seg.text.data).length + max_words.toNat - 1) /
        max_words.toNat ∧
      (∀ (j : ℕ) (hj : j < cs.length),
        (cs.get ⟨j, hj⟩).text =
          pyJoin (((splitWs seg.text.data).drop (j * max_words.toNat)).take
            max_words.toNat) ∧
        ((splitWs seg.text.data).drop (j * max_words.toNat)).take
            max_words.toNat ≠ [] ∧
        (((splitWs seg.text.data).drop (j * max_words.toNat)).take
            max_words.toNat).length ≤ max_words.toNat ∧
        (cs.get ⟨j, hj⟩).start = seg.start + ((j * max_words.toNat : ℕ) : ℚ) *
          ((seg.«end» - seg.start) / ((splitWs seg.text.data).length : ℚ)) ∧
        (cs.get ⟨j, hj⟩).«end» = (cs.get ⟨j, hj⟩).start +
          ((((splitWs seg.text.data).drop (j * max_words.toNat)).take
              max_words.toNat).length : ℚ) *
            ((seg.«end» - seg.start) / ((splitWs seg.text.data).length : ℚ)) ∧
        (cs.get ⟨j, hj⟩).start ≤ (cs.get ⟨j, hj⟩).«end») ∧
      (∀ (j : ℕ) (hj1 : j + 1 < cs.length),
        (cs.get ⟨j, Nat.lt_of_succ_lt hj1⟩).«end» =
          (cs.get ⟨j + 1, hj1⟩).start) ∧
      (∀ h0 : 0 < cs.length,
        (cs.get ⟨0, h0⟩).start = seg.start ∧
        (cs.get ⟨cs.length - 1, Nat.sub_lt h0 Nat.one_pos⟩).«end» =
          seg.«end») := by
  have hmwN : 1 ≤ max_words.toNat := by omega
  have hnn : max_words.toNat < (splitWs seg.text.data).length := by omega
  have hn1 : 1 ≤ (splitWs seg.text.data).length := by omega
  have hwd0 : 0 ≤ (seg.«end» - seg.start) /
      ((splitWs seg.text.data).length : ℚ) :=
    div_nonneg (sub_nonneg.mpr hse) (Nat.cast_nonneg _)
  refine ⟨(List.range (((splitWs seg.text.data).length + max_words.toNat - 1) /
      max_words.toNat)).map
      (chunkCaption idx seg.start
        ((seg.«end» - seg.start) / ((splitWs seg.text.data).length : ℚ))
        (splitWs seg.text.data) max_words.toNat), ?_, ?_, ?_, ?_, ?_⟩
  · rw [segCaptions_split idx seg hmw hlong]
    simp only [List.length_map, List.length_range]
  · simp only [List.length_map, List.length_range]
  · intro j hj
    rw [get_map_range, chunkCaption_text, chunkCaption_start, chunkCaption_end]
    have hjk : j < ((splitWs seg.text.data).length + max_words.toNat - 1) /
        max_words.toNat := by
      simpa using hj
    have hlt : j * max_words.toNat < (splitWs seg.text.data).length :=
      chunk_start_lt hjk
    refine ⟨rfl, ?_, ?_, rfl, ?_, ?_⟩
    · apply List.ne_nil_of_length_pos
      rw [List.length_take, List.length_drop]
      omega
    · rw [List.length_take, List.length_drop]
      omega
    · push_cast
      ring
    · exact le_add_of_nonneg_right (mul_nonneg (Nat.cast_nonneg _) hwd0)
  · intro j hj1
    rw [get_map_range, get_map_range, chunkCaption_end, chunkCaption_start]
    have hjk : j + 1 < ((splitWs seg.text.data).length + max_words.toNat - 1) /
        max_words.toNat := by
      simpa using hj1
    have hlt1 : (j + 1) * max_words.toNat < (splitWs seg.text.data).length :=
      chunk_start_lt hjk
    have hrel : (j + 1) * max_words.toNat = j * max_words.toNat +
        max_words.toNat := Nat.succ_mul j max_words.toNat
    have hfull : (((splitWs seg.text.data).drop
        (j * max_words.toNat)).take max_words.toNat).length =
        max_words.toNat := by
      rw [List.length_take, List.length_drop]
      omega
    rw [hfull, hrel]
    push_cast
    ring
  · intro h0
    constructor
    · rw [get_map_range, chunkCaption_start]
      simp
    · have hk1 : 1 ≤ ((splitWs seg.text.data).length + max_words.toNat - 1) /
          max_words.toNat := by
        simpa using h0
      rw [get_map_range]
      simp only [List.length_map, List.length_range]
      rw [chunkCaption_end]
      have hlt : (((splitWs seg.text.data).length + max_words.toNat - 1) /
          max_words.toNat - 1) * max_words.toNat <
          (splitWs seg.text.data).length :=
        chunk_start_lt (by omega)
      have hle : (splitWs seg.text.data).length ≤
          (((splitWs seg.text.data).length + max_words.toNat - 1) /
            max_words.toNat) * max_words.toNat := le_numChunks_mul hmwN
      have hrel : (((splitWs seg.text.data).length + max_words.toNat - 1) /
          max_words.toNat) * max_words.toNat =
          (((splitWs seg.text.data).length + max_words.toNat - 1) /
            max_words.toNat - 1) * max_words.toNat + max_words.toNat := by
        have hsucc := Nat.succ_mul
          (((splitWs seg.text.data).length + max_words.toNat - 1) /
            max_words.toNat - 1) max_words.toNat
        rw [← hsucc]
        congr 1
        omega
      have hlen : (((splitWs seg.text.data).drop
          ((((splitWs seg.text.data).length + max_words.toNat - 1) /
            max_words.toNat - 1) * max_words.toNat)).take
          max_words.toNat).length =
          (splitWs seg.text.data).length -
            (((splitWs seg.text.data).length + max_words.toNat - 1) /
              max_words.toNat - 1) * max_words.toNat := by
        rw [List.length_take, List.length_drop]
        omega
      rw [hlen]
      have hcast : ((((((splitWs seg.text.data).length + max_words.toNat - 1) /
          max_words.toNat - 1) * max_words.toNat : ℕ)) : ℚ) +
          (((splitWs seg.text.data).length -
            (((splitWs seg.text.data).length + max_words.toNat - 1) /
              max_words.toNat - 1) * max_words.toNat : ℕ) : ℚ) =
          ((splitWs seg.text.data).length : ℚ) := by
        rw [← Nat.cast_add]
        congr 1
        omega
      have hn0 : ((splitWs seg.text.data).length : ℚ) ≠ 0 :=
        Nat.cast_ne_zero.mpr (by omega)
      have hstep : seg.start +
          ((((((splitWs seg.text.data).length + max_words.toNat - 1) /
            max_words.toNat - 1) * max_words.toNat : ℕ)) : ℚ) *
            ((seg.«end» - seg.start) / ((splitWs seg.text.data).length : ℚ)) +
          (((splitWs seg.text.data).length -
            (((splitWs seg.text.data).length + max_words.toNat - 1) /
              max_words.toNat - 1) * max_words.toNat : ℕ) : ℚ) *
            ((seg.«end» - seg.start) / ((splitWs seg.text.data).length : ℚ)) =
          seg.start + ((splitWs seg.text.data).length : ℚ) *
            ((seg.«end» - seg.start) / ((splitWs seg.text.data).length : ℚ)) := by
        rw [← hcast]
        ring
      rw [hstep, mul_comm, div_mul_cancel₀ _ hn0]
      ring

/-- C1 witness: a 5-word segment with `max_words = 2` splits into 3 chunks
and the counter advances by 3. -/
theorem spec_C1_proportional_split_witness :
    ∃ cs : List Caption,
      segCaptions 2 1 ⟨"a b c d e", 0, 5⟩ = .ok (cs, 1 + cs.length) ∧
      cs.length = 3 := by
  obtain ⟨cs, h1, h2, -, -, -⟩ := spec_C1_proportional_split
    ⟨"a b c d e", 0, 5⟩ 2 1 (by decide) (by with_unfolding_all decide)
    (by with_unfolding_all decide)
  refine ⟨cs, h1, ?_⟩
  rw [h2]
  with_unfolding_all rfl

/-- C5 witness at a concrete word limit. -/
theorem spec_C5_empty_input_witness :
    mainConvert [] 10 = .error .emptyInput := spec_C5_empty_input 10
